import Mathlib

/-!
# Verification of the `line-counter` classifier (`src/main.rs`)

Shallow embedding of the line-counting program. Strings are embedded as
`List Char`; Rust's byte indices coincide with character indices on the
ASCII inputs the claims are about, and for valid-UTF-8 markers a byte-level
substring match always falls on character boundaries, so first-occurrence
positions and the end-of-line test agree between the two views.

The source's `lines()` splitting, directory traversal and CLI are outside
the claims; the classifier receives the file's physical lines as a
`List (List Char)` and the aggregator receives one record per walked file.
-/

namespace LineCounter

/-- Character list of a string literal, for writing markers and lines. -/
def str (s : String) : List Char := s.data

/-- Rust `str::find`: index of the first occurrence of `pat` in `s`,
`none` when `pat` does not occur. -/
def strFind (s pat : List Char) : Option Nat :=
  match s with
  | [] => if pat = [] then some 0 else none
  | _ :: rest =>
    if pat.isPrefixOf s then some 0
    else (strFind rest pat).map (· + 1)

/-- Rust `str::trim`: drop leading and trailing whitespace. -/
def trim (s : List Char) : List Char :=
  ((s.dropWhile Char.isWhitespace).reverse.dropWhile Char.isWhitespace).reverse

/-- The source's `enum CommentSyntax`: `LineStart(&str)` and
`Range(&str, &str)` (the spec calls these `LinePrefix` and `BlockRange`). -/
inductive CommentRule where
  | LineStart (s : List Char)
  | Range (s e : List Char)
deriving DecidableEq, Repr

/-- The guard of the `Range` arm, `src/main.rs:165-168`:
`line.find(start).filter(|i| line.find(end).map_or(true, |j| j < *i))`.
`some i` means the block-open match fires at index `i`. -/
def rangeFires (l s e : List Char) : Option Nat :=
  match strFind l s with
  | none => none
  | some i =>
    match strFind l e with
    | none => some i
    | some j => if j < i then some i else none

/-- The inner `while` of the `Range` arm, `src/main.rs:172-178`: consume
lines until one contains the close marker `e`. Returns `(some skip, rest)`
when a closing line is found -- `skip` is `i + end.len() == line.len()` --
and `(none, [])` when the lines run out first. -/
def scanClose (e : List Char) : List (List Char) → Option Bool × List (List Char)
  | [] => (none, [])
  | lc :: rest =>
    match strFind lc e with
    | some j => (some (j + e.length == lc.length), rest)
    | none => scanClose e rest

/-- One iteration of the outer `while` body, `src/main.rs:155-185`: run the
`'comments` loop over the rule list on the current (trimmed) line `l` with
the remaining lines `ls`.  Returns the lines counted during this iteration
(the current line's `if !skip` increment, the `i > 0` increment, and the
closing line's increment, as applicable) and the remaining iterator.
When a fired `Range` never finds its close the inner `while` exhausts the
iterator and the `for` continues with the next rule, which the last case
mirrors by recursing on `rest` with the now-empty line list. -/
def classifyLine : List CommentRule → List Char → List (List Char) → Nat × List (List Char)
  | [], _, ls => (1, ls)
  | .LineStart s :: rest, l, ls =>
    if s.isPrefixOf l then (0, ls) else classifyLine rest l ls
  | .Range s e :: rest, l, ls =>
    match rangeFires l s e with
    | some i =>
      let base := if 0 < i then 1 else 0
      match scanClose e ls with
      | (some skip, rest') => (base + (if skip then 0 else 1), rest')
      | (none, rest') =>
        let p := classifyLine rest l rest'
        (base + p.1, p.2)
    | none => classifyLine rest l ls

/-- Fuelled outer `while` loop: one unit of fuel per iteration.  Each
iteration consumes at least the current line, so `lines.length` fuel always
suffices (`countLinesAux_fuel`). -/
def countLinesAux (rules : List CommentRule) : Nat → List (List Char) → Nat
  | _, [] => 0
  | 0, _ :: _ => 0
  | fuel + 1, l :: ls =>
    let p := classifyLine rules l ls
    p.1 + countLinesAux rules fuel p.2

/-- The comment-aware count of `src/main.rs:153-187` on an already trimmed
and filtered line list. -/
def countLines (rules : List CommentRule) (lines : List (List Char)) : Nat :=
  countLinesAux rules lines.length lines

/-- The whole per-file classifier, `src/main.rs:147-190`: trim every line,
drop empty lines unless `count_empty`, then either run the comment state
machine (known language, `!count_comments`) or count the survivors. -/
def classifyCount (rules? : Option (List CommentRule)) (count_empty count_comments : Bool)
    (src : List (List Char)) : Nat :=
  let lines := (src.map trim).filter fun l => count_empty || !l.isEmpty
  match (if count_comments then none else rules?) with
  | some rules => countLines rules lines
  | none => lines.length

/-- The source's `struct Language`. -/
structure Language where
  name : String
  comments : List CommentRule
deriving DecidableEq, Repr

/-- `C_STYLE`, `src/main.rs:31-34`. -/
def C_STYLE : List CommentRule :=
  [.LineStart (str "//"), .Range (str "/*") (str "*/")]

/-- `HASH`, `src/main.rs:35`. -/
def HASH : List CommentRule := [.LineStart (str "#")]

/-- `MATLAB`, `src/main.rs:36-39`. -/
def MATLAB : List CommentRule :=
  [.LineStart (str "%"), .Range (str "%\x7b") (str "\x7d%")]

/-- `SCHEME`, `src/main.rs:40-43`. -/
def SCHEME : List CommentRule :=
  [.LineStart (str ";"), .Range (str "#|") (str "|#")]

/-- The `phf_map!` registry `LANGUAGES`, `src/main.rs:58-113`, as an
association list (its keys are pairwise distinct so lookup order is
immaterial). -/
def LANGUAGES : List (List Char × Language) :=
  [ (str "rs", ⟨"Rust", C_STYLE⟩),
    (str "go", ⟨"Go", C_STYLE⟩),
    (str "h", ⟨"C", C_STYLE⟩),
    (str "c", ⟨"C", C_STYLE⟩),
    (str "hpp", ⟨"C++", C_STYLE⟩),
    (str "cpp", ⟨"C++", C_STYLE⟩),
    (str "cs", ⟨"C#", C_STYLE⟩),
    (str "java", ⟨"Java", C_STYLE⟩),
    (str "js", ⟨"javascript", C_STYLE⟩),
    (str "carbon", ⟨"Carbon", C_STYLE⟩),
    (str "swift", ⟨"Swift", C_STYLE⟩),
    (str "dart", ⟨"Dart", C_STYLE⟩),
    (str "sc", ⟨"Scala", C_STYLE⟩),
    (str "kt", ⟨"Kotlin", C_STYLE⟩),
    (str "hla", ⟨"HLA", C_STYLE⟩),
    (str "lua", ⟨"Lua", C_STYLE⟩),
    (str "rhai", ⟨"Rhai", C_STYLE⟩),
    (str "ts", ⟨"Scala", [.Range (str "/**") (str "*/")]⟩),
    (str "wgsl", ⟨"wglsl", C_STYLE⟩),
    (str "glsl", ⟨"glsl", C_STYLE⟩),
    (str "hlsl", ⟨"hlsl", C_STYLE⟩),
    (str "php", ⟨"Swift",
      [.LineStart (str "//"), .LineStart (str "#"), .Range (str "/*") (str "*/")]⟩),
    (str "hs", ⟨"Haskell", [.LineStart (str "--"), .Range (str "\x7b-") (str "-\x7d")]⟩),
    (str "rb", ⟨"Ruby", [.LineStart (str "#"), .Range (str "=begin") (str "=end")]⟩),
    (str "asm", ⟨"Assembly", [.LineStart (str ";")]⟩),
    (str "tao", ⟨"Tao", [.LineStart (str "##")]⟩),
    (str "html", ⟨"html", [.Range (str "<!--") (str "-->")]⟩),
    (str "css", ⟨"css", [.Range (str "/*") (str "*/")]⟩),
    (str "zig", ⟨"Zig", [.LineStart (str "//")]⟩),
    (str "py", ⟨"Python", HASH⟩),
    (str "r", ⟨"R", HASH⟩),
    (str "pl", ⟨"Perl", HASH⟩),
    (str "emojic", ⟨"emojicode", HASH⟩),
    (str "toml", ⟨"TOML", HASH⟩),
    (str "gitignore", ⟨"git ignore", HASH⟩),
    (str "makefile", ⟨"make file", HASH⟩),
    (str "bash", ⟨"bash script", HASH⟩),
    (str "bat", ⟨"batch script", [.LineStart (str "Rem"), .LineStart (str "::")]⟩),
    (str "m", ⟨"Matlab", MATLAB⟩),
    (str "mat", ⟨"Matlab", MATLAB⟩),
    (str "ss", ⟨"Scheme", SCHEME⟩),
    (str "sls", ⟨"Scheme", SCHEME⟩),
    (str "scm", ⟨"Scheme", SCHEME⟩) ]

/-- Association-list lookup, the embedding of `phf::Map::get`. -/
def getLang (k : List Char) : List (List Char × Language) → Option Language
  | [] => none
  | (k', v) :: rest => if k = k' then some v else getLang k rest

/-- `LANGUAGES.get(lang)`, `src/main.rs:152`. -/
def LANGUAGES_get (ext : List Char) : Option Language := getLang ext LANGUAGES

/-- Rust `name.split('.')` as a list of segments (always non-empty, like the
`Split` iterator). -/
def splitDot : List Char → List (List Char)
  | [] => [[]]
  | c :: rest =>
    if c = '.' then [] :: splitDot rest
    else
      match splitDot rest with
      | [] => [[c]]
      | seg :: segs => (c :: seg) :: segs

/-- `name.split('.').last()`, `src/main.rs:145`, before the `unwrap`. -/
def extOf (name : List Char) : Option (List Char) := (splitDot name).getLast?

/-- The value the `unwrap` extracts (total form; `extOf_eq_some` shows it is
what `extOf` always returns). -/
def extVal (name : List Char) : List Char := (splitDot name).getLastD []

/-- Per-file count as a function of the extension key, `src/main.rs:147-190`:
`LANGUAGES.get(lang).filter(|_| !count_comments)` then the classifier. -/
def countSrc (ext : List Char) (count_empty count_comments : Bool)
    (src : List (List Char)) : Nat :=
  classifyCount ((LANGUAGES_get ext).map Language.comments) count_empty count_comments src

/-- `struct CountResult`, with the `HashMap` as an association list. -/
structure CountResult where
  languages : List (List Char × Nat)
  total : Nat
deriving DecidableEq, Repr

/-- `*res.languages.entry(lang.to_string()).or_insert(0) += lines`,
`src/main.rs:192`. -/
def bump : List (List Char × Nat) → List Char → Nat → List (List Char × Nat)
  | [], k, v => [(k, v)]
  | (k', v') :: rest, k, v =>
    if k' = k then (k', v' + v) :: rest else (k', v') :: bump rest k v

/-- One walked file as the classifier/aggregator sees it: its name and its
`fs::read_to_string` outcome (`none` = the read failed). -/
structure FileEntry where
  name : List Char
  content : Option (List (List Char))

/-- The body of the `for entry` loop, `src/main.rs:140-193`: skip unreadable
files, otherwise classify and add to the per-extension and grand totals. -/
def processEntry (count_empty count_comments : Bool) (res : CountResult)
    (fe : FileEntry) : CountResult :=
  match fe.content with
  | none => res
  | some src =>
    let lang := extVal fe.name
    let cnt := countSrc lang count_empty count_comments src
    { languages := bump res.languages lang cnt, total := res.total + cnt }

/-- The aggregation loop started from an arbitrary intermediate state. -/
def countDirFrom (count_empty count_comments : Bool) (res : CountResult)
    (entries : List FileEntry) : CountResult :=
  entries.foldl (processEntry count_empty count_comments) res

/-- `count_dir`, `src/main.rs:121-196`, over the walker's file sequence. -/
def count_dir (entries : List FileEntry) (count_empty count_comments : Bool) :
    CountResult :=
  countDirFrom count_empty count_comments ⟨[], 0⟩ entries

/-- Sum of the per-extension tallies. -/
def sumCounts (m : List (List Char × Nat)) : Nat := (m.map Prod.snd).sum

/-- Modelled from the spec's words (§4.2 tie-break): the block-open match
fires when the line contains `s` and no occurrence of `e` lies strictly
before it. Stated for comparison with the source's `rangeFires`. -/
def specOpenFires (l s e : List Char) : Bool :=
  match strFind l s with
  | none => false
  | some i =>
    match strFind l e with
    | none => true
    | some j => decide (i ≤ j)

/-- Whether a rule's guard succeeds on the (trimmed) line `l`: the
`starts_with` test for `LineStart`, the fire condition for `Range`. -/
def ruleTriggers (l : List Char) : CommentRule → Bool
  | .LineStart s => s.isPrefixOf l
  | .Range s e => (rangeFires l s e).isSome

/-- Every `LineStart` rule precedes every `Range` rule.  Holds for each
rule list in the shipped registry. -/
def noLineStartAfterRange : List CommentRule → Bool
  | [] => true
  | .LineStart _ :: rest => noLineStartAfterRange rest
  | .Range _ _ :: rest =>
    rest.all fun r => match r with | .Range _ _ => true | .LineStart _ => false

/-- The raw branch `lines.count()` of `src/main.rs:189`: number of lines
surviving the trim-and-filter stage. -/
def rawCount (count_empty : Bool) (src : List (List Char)) : Nat :=
  ((src.map trim).filter fun l => count_empty || !l.isEmpty).length

/-! ## Helper lemmas -/

theorem scanClose_length (e : List Char) :
    ∀ ls : List (List Char), ((scanClose e ls).2).length ≤ ls.length := by
  intro ls
  induction ls with
  | nil => simp [scanClose]
  | cons lc rest ih =>
    simp only [scanClose]
    cases h : strFind lc e with
    | some j => simp
    | none => simpa using Nat.le_succ_of_le ih

theorem classifyLine_length :
    ∀ (rules : List CommentRule) (l : List Char) (ls : List (List Char)),
      ((classifyLine rules l ls).2).length ≤ ls.length := by
  intro rules
  induction rules with
  | nil => intro l ls; simp [classifyLine]
  | cons r rest ih =>
    intro l ls
    cases r with
    | LineStart s =>
      simp only [classifyLine]
      by_cases h : s.isPrefixOf l <;> simp [h, ih]
    | Range s e =>
      simp only [classifyLine]
      cases hf : rangeFires l s e with
      | none => simpa using ih l ls
      | some i =>
        have hsc := scanClose_length e ls
        cases hc : scanClose e ls with
        | mk sk rest' =>
          cases sk with
          | none =>
            have h1 : ((classifyLine rest l rest').2).length ≤ rest'.length := ih l rest'
            have h2 : rest'.length ≤ ls.length := by
              simpa [hc] using hsc
            simpa using le_trans h1 h2
          | some skip =>
            simpa [hc] using hsc

theorem countLinesAux_fuel (rules : List CommentRule) :
    ∀ (n m : Nat) (ls : List (List Char)), ls.length ≤ n → ls.length ≤ m →
      countLinesAux rules n ls = countLinesAux rules m ls := by
  intro n
  induction n with
  | zero =>
    intro m ls hn _
    have : ls = [] := List.length_eq_zero.mp (Nat.le_zero.mp hn)
    subst this
    cases m <;> simp [countLinesAux]
  | succ n ih =>
    intro m ls hn hm
    cases ls with
    | nil => cases m <;> simp [countLinesAux]
    | cons l ls' =>
      cases m with
      | zero => simp at hm
      | succ m' =>
        simp only [countLinesAux]
        have hlen := classifyLine_length rules l ls'
        have h1 : ((classifyLine rules l ls').2).length ≤ n := by
          exact le_trans hlen (by simpa using hn)
        have h2 : ((classifyLine rules l ls').2).length ≤ m' := by
          exact le_trans hlen (by simpa using hm)
        rw [ih m' _ h1 h2]

theorem countLines_nil (rules : List CommentRule) : countLines rules [] = 0 := rfl

theorem countLines_cons (rules : List CommentRule) (l : List Char)
    (ls : List (List Char)) :
    countLines rules (l :: ls) =
      (classifyLine rules l ls).1 + countLines rules (classifyLine rules l ls).2 := by
  have hlen := classifyLine_length rules l ls
  simp only [countLines, List.length_cons, countLinesAux]
  rw [countLinesAux_fuel rules ls.length ((classifyLine rules l ls).2).length _ hlen le_rfl]

theorem classifyLine_noTrigger (r : CommentRule) (rest : List CommentRule)
    (l : List Char) (ls : List (List Char)) (h : ruleTriggers l r = false) :
    classifyLine (r :: rest) l ls = classifyLine rest l ls := by
  cases r with
  | LineStart s =>
    simp only [ruleTriggers] at h
    simp [classifyLine, h]
  | Range s e =>
    simp only [ruleTriggers] at h
    cases hr : rangeFires l s e with
    | none => simp [classifyLine, hr]
    | some i => rw [hr] at h; simp at h

theorem classifyLine_noTrigger_list (RS rest : List CommentRule) (l : List Char)
    (ls : List (List Char)) (h : ∀ r ∈ RS, ruleTriggers l r = false) :
    classifyLine (RS ++ rest) l ls = classifyLine rest l ls := by
  induction RS with
  | nil => simp
  | cons r RS ih =>
    rw [List.cons_append, classifyLine_noTrigger r _ l ls (h r (by simp))]
    exact ih fun r hr => h r (by simp [hr])

theorem classifyLine_range_close (rest : List CommentRule) (s e l : List Char)
    (i : Nat) (skip : Bool) (ls ls' : List (List Char))
    (hf : rangeFires l s e = some i) (hc : scanClose e ls = (some skip, ls')) :
    classifyLine (.Range s e :: rest) l ls =
      ((if 0 < i then 1 else 0) + (if skip then 0 else 1), ls') := by
  simp [classifyLine, hf, hc]

theorem classifyLine_range_exhaust (rest : List CommentRule) (s e l : List Char)
    (i : Nat) (ls ls' : List (List Char))
    (hf : rangeFires l s e = some i) (hc : scanClose e ls = (none, ls')) :
    classifyLine (.Range s e :: rest) l ls =
      ((if 0 < i then 1 else 0) + (classifyLine rest l ls').1,
        (classifyLine rest l ls').2) := by
  simp [classifyLine, hf, hc]

theorem scanClose_no_close (e : List Char) :
    ∀ ls : List (List Char), (∀ lc ∈ ls, strFind lc e = none) →
      scanClose e ls = (none, []) := by
  intro ls
  induction ls with
  | nil => simp [scanClose]
  | cons lc rest ih =>
    intro h
    have h0 : strFind lc e = none := h lc (by simp)
    simp only [scanClose, h0]
    exact ih fun l hl => h l (by simp [hl])

theorem scanClose_found (e : List Char) (j : Nat) (lc : List Char) :
    ∀ (mid tl : List (List Char)), (∀ lm ∈ mid, strFind lm e = none) →
      strFind lc e = some j →
      scanClose e (mid ++ lc :: tl) = (some (j + e.length == lc.length), tl) := by
  intro mid
  induction mid with
  | nil =>
    intro tl _ hj
    simp [scanClose, hj]
  | cons lm mid ih =>
    intro tl hmid hj
    have h0 : strFind lm e = none := hmid lm (by simp)
    simp only [List.cons_append, scanClose, h0]
    exact ih tl (fun l hl => hmid l (by simp [hl])) hj

theorem getLang_mem (k : List Char) :
    ∀ (ps : List (List Char × Language)) (v : Language),
      getLang k ps = some v → v ∈ ps.map Prod.snd := by
  intro ps
  induction ps with
  | nil => intro v h; simp [getLang] at h
  | cons p rest ih =>
    intro v h
    cases p with
    | mk k' v' =>
      rw [show getLang k ((k', v') :: rest) = if k = k' then some v' else getLang k rest
        from rfl] at h
      by_cases hk : k = k'
      · rw [if_pos hk, Option.some_inj] at h
        subst h
        exact List.mem_cons_self _ _
      · rw [if_neg hk] at h
        exact List.mem_cons_of_mem _ (ih v h)

theorem classifyLine_lineStart_skip :
    ∀ (rules : List CommentRule) (m l : List Char) (ls : List (List Char)),
      noLineStartAfterRange rules = true →
      CommentRule.LineStart m ∈ rules → m.isPrefixOf l = true →
      classifyLine rules l ls = (0, ls) := by
  intro rules
  induction rules with
  | nil => intro m l ls _ hmem; simp at hmem
  | cons r rest ih =>
    intro m l ls hok hmem hpre
    cases r with
    | LineStart s =>
      by_cases hs : s.isPrefixOf l = true
      · simp [classifyLine, hs]
      · have hmem' : CommentRule.LineStart m ∈ rest := by
          rcases List.mem_cons.mp hmem with heq | hmem'
          · injection heq with hms
            subst hms
            exact absurd hpre hs
          · exact hmem'
        rw [classifyLine_noTrigger _ _ _ _
          (by simp only [ruleTriggers]; exact Bool.eq_false_iff.mpr hs)]
        exact ih m l ls (by simpa [noLineStartAfterRange] using hok) hmem' hpre
    | Range s e =>
      exfalso
      simp only [noLineStartAfterRange, List.all_eq_true] at hok
      rcases List.mem_cons.mp hmem with heq | hmem'
      · exact CommentRule.noConfusion heq
      · have := hok _ hmem'
        simp at this

theorem LANGUAGES_ok :
    (LANGUAGES.map Prod.snd).all (fun lg => noLineStartAfterRange lg.comments) = true := by
  decide

theorem splitDot_ne_nil : ∀ name : List Char, splitDot name ≠ [] := by
  intro name
  induction name with
  | nil => simp [splitDot]
  | cons c rest ih =>
    simp only [splitDot]
    by_cases hc : c = '.'
    · simp [hc]
    · simp only [hc, if_false]
      cases h : splitDot rest with
      | nil => simp
      | cons seg segs => simp

theorem splitDot_no_dot : ∀ name : List Char, '.' ∉ name → splitDot name = [name] := by
  intro name
  induction name with
  | nil => intro _; rfl
  | cons c rest ih =>
    intro h
    have hc : ¬(c = '.') := fun he => h (by simp [he])
    have hrest : '.' ∉ rest := fun hr => h (List.mem_cons_of_mem _ hr)
    simp [splitDot, if_neg hc, ih hrest]

theorem extOf_eq_some : ∀ name : List Char, extOf name = some (extVal name) := by
  intro name
  have hne := splitDot_ne_nil name
  simp only [extOf, extVal]
  rw [List.getLastD_eq_getLast?]
  cases h : (splitDot name).getLast? with
  | none => exact absurd (List.getLast?_eq_none_iff.mp h) hne
  | some v => rfl

theorem sumCounts_bump (k : List Char) (v : Nat) :
    ∀ m : List (List Char × Nat), sumCounts (bump m k v) = sumCounts m + v := by
  intro m
  induction m with
  | nil => simp [bump, sumCounts]
  | cons p rest ih =>
    cases p with
    | mk k' v' =>
      simp only [bump]
      by_cases hk : k' = k
      · simp only [hk, if_pos rfl]
        simp [sumCounts]
        ring
      · simp only [hk, if_neg, if_false]
        simp [sumCounts] at ih ⊢
        omega

theorem processEntry_invariant (ce cc : Bool) (res : CountResult) (fe : FileEntry)
    (h : sumCounts res.languages = res.total) :
    sumCounts (processEntry ce cc res fe).languages = (processEntry ce cc res fe).total := by
  cases hc : fe.content with
  | none => simpa [processEntry, hc] using h
  | some src => simp [processEntry, hc, sumCounts_bump, h]

theorem rawCount_true : ∀ src : List (List Char), rawCount true src = src.length := by
  intro src
  simp [rawCount]

theorem rawCount_false :
    ∀ src : List (List Char),
      rawCount false src = (src.filter fun l => !(trim l).isEmpty).length := by
  intro src
  induction src with
  | nil => rfl
  | cons a rest ih =>
    simp only [rawCount, List.map_cons, List.filter_cons] at ih ⊢
    by_cases h : (trim a).isEmpty
    · simpa [h] using ih
    · simp only [Bool.false_or]
      rw [Bool.eq_false_iff.mpr h]
      simpa using ih

/-! ## Claims -/

/-- Claim C1, counterexample: at the line `/* c */` the open marker occurs
at index 0 with no close occurrence strictly before it (the close is at 5),
so the claim predicts the block fires, but `rangeFires` does not fire; at
`*/ x /*` a close lies strictly before the open, the claim predicts no
fire, yet the code fires. -/
theorem C1_counterexample :
    (¬ ((rangeFires (str "/* c */") (str "/*") (str "*/")).isSome =
      specOpenFires (str "/* c */") (str "/*") (str "*/"))) ∧
    (¬ ((rangeFires (str "*/ x /*") (str "/*") (str "*/")).isSome =
      specOpenFires (str "*/ x /*") (str "/*") (str "*/"))) := by
  decide

/-- Claim C1, amended: the `open` match of a `BlockRange` rule fires at
index `i` exactly when the line contains `open` first at `i` and either no
close occurs on the line or the first close occurrence lies strictly
BEFORE `i` (the code's tie-break is the reverse of the spec's: a close at
or after the open suppresses the block). -/
theorem C1_range_open_fire (l s e : List Char) (i : Nat) :
    rangeFires l s e = some i ↔
      strFind l s = some i ∧
        (strFind l e = none ∨ ∃ j, strFind l e = some j ∧ j < i) := by
  unfold rangeFires
  cases hs : strFind l s with
  | none => simp
  | some i' =>
    cases he : strFind l e with
    | none => simp
    | some j =>
      by_cases hj : j < i'
      · simp only [if_pos hj, Option.some_inj, reduceCtorEq, false_or]
        constructor
        · intro h
          subst h
          exact ⟨rfl, ⟨j, rfl, hj⟩⟩
        · rintro ⟨h1, _⟩
          exact h1
      · simp only [if_neg hj, Option.some_inj, reduceCtorEq, false_or]
        constructor
        · intro h
          exact absurd h (by simp)
        · rintro ⟨rfl, j', rfl, hlt⟩
          exact absurd hlt hj

/-- Claim C2, counterexample: for `["/* open", "x", "y"]` the block opens
at index 0 and never closes; the claim predicts count 0 (opening line at
column 0 does not count, the rest is consumed), but the code counts 1: when
the inner search exhausts the lines, `skip` is still `false` and the loop's
final increment fires for the opening line. -/
theorem C2_counterexample :
    countLines C_STYLE [str "/* open", str "x", str "y"] ≠ 0 ∧
    countLines C_STYLE [str "/* open", str "x", str "y"] = 1 := by
  decide

/-- Claim C2, amended: when a `BlockRange` rule (last in its rule list, as
in every shipped descriptor) fires on a line and no later line contains the
close marker, all remaining lines are consumed and classification
terminates, but the opening line contributes 1 when the open is at index 0
and 2 when it is at a positive index — one more than the claim states,
because the unfound close leaves `skip` unset and the final `count += 1`
fires in addition to the `i > 0` increment. -/
theorem C2_unclosed_block (RS : List CommentRule) (s e l : List Char) (i : Nat)
    (ls : List (List Char))
    (hRS : ∀ r ∈ RS, ruleTriggers l r = false)
    (hfire : rangeFires l s e = some i)
    (hnc : ∀ lc ∈ ls, strFind lc e = none) :
    countLines (RS ++ [CommentRule.Range s e]) (l :: ls) = if 0 < i then 2 else 1 := by
  rw [countLines_cons, classifyLine_noTrigger_list _ _ _ _ hRS,
    classifyLine_range_exhaust [] s e l i ls [] hfire (scanClose_no_close e ls hnc)]
  simp only [classifyLine, countLines_nil]
  by_cases h : 0 < i <;> simp [h]

/-- Witness for C2 at a concrete input: code before the unclosed open. -/
theorem C2_witness :
    countLines ([CommentRule.LineStart (str "//")] ++
      [CommentRule.Range (str "/*") (str "*/")]) [str "x /* open", str "y"] = 2 := by
  have h := C2_unclosed_block [CommentRule.LineStart (str "//")] (str "/*") (str "*/")
    (str "x /* open") 2 [str "y"] (by decide) (by decide) (by decide)
  simpa using h

/-- Claim C3, counterexample: the spec's own example
`["code();", "/* comment", "more comment */", "more_code();"]` with
`includeEmpty = false`, `includeComments = false` yields 2 under the code
(`code();` and `more_code();`), not the claimed 3. -/
theorem C3_counterexample :
    classifyCount (some C_STYLE) false false
      [str "code();", str "/* comment", str "more comment */", str "more_code();"] ≠ 3 ∧
    classifyCount (some C_STYLE) false false
      [str "code();", str "/* comment", str "more comment */", str "more_code();"] = 2 := by
  decide

/-- Claim C3, amended: when a fired block's close marker is first found on
line `lc` at index `j`, the closing line is excluded from the count exactly
when `j + |close|` is the end of the trimmed line; otherwise the closing
line counts once, and in either case scanning resumes after `lc` without
re-examining it. The spec's concrete example yields 2, not 3. -/
theorem C3_close_line :
    (∀ (rest : List CommentRule) (s e l lc : List Char) (i j : Nat)
        (mid tl : List (List Char)),
      rangeFires l s e = some i →
      (∀ lm ∈ mid, strFind lm e = none) →
      strFind lc e = some j →
      classifyLine (CommentRule.Range s e :: rest) l (mid ++ lc :: tl) =
        ((if 0 < i then 1 else 0) + (if j + e.length == lc.length then 0 else 1), tl)) ∧
    classifyCount (some C_STYLE) false false
      [str "code();", str "/* comment", str "more comment */", str "more_code();"] = 2 := by
  constructor
  · intro rest s e l lc i j mid tl hf hmid hj
    exact classifyLine_range_close rest s e l i (j + e.length == lc.length) _ tl hf
      (scanClose_found e j lc mid tl hmid hj)
  · decide

/-- Witness for C3: a closing line with trailing content counts once and
scanning resumes after it. -/
theorem C3_witness :
    classifyLine [CommentRule.Range (str "/*") (str "*/")] (str "/* a") [str "b */ x"] =
      (1, []) := by
  have h := C3_close_line.1 [] (str "/*") (str "*/") (str "/* a") (str "b */ x") 0 2 [] []
    (by decide) (by decide) (by decide)
  simpa using h

/-- Claim C4, confirmed: when a `BlockRange` fires at index `i` and the
close is later found, the opening line contributes one counted line exactly
when `i > 0` (code precedes the comment) and nothing when `i = 0`; the
spec's example `["x = 1; /* note", "end note */"]` counts 1. -/
theorem C4_opening_line :
    (∀ (rest : List CommentRule) (s e l : List Char) (i : Nat) (skip : Bool)
        (ls ls' : List (List Char)),
      rangeFires l s e = some i → scanClose e ls = (some skip, ls') →
      (classifyLine (CommentRule.Range s e :: rest) l ls).1 =
        (if 0 < i then 1 else 0) + (if skip then 0 else 1)) ∧
    classifyCount (some C_STYLE) false false
      [str "x = 1; /* note", str "end note */"] = 1 := by
  constructor
  · intro rest s e l i skip ls ls' hf hc
    rw [classifyLine_range_close rest s e l i skip ls ls' hf hc]
  · decide

/-- Witness for C4: open at index 2, closed on the next line. -/
theorem C4_witness :
    (classifyLine [CommentRule.Range (str "/*") (str "*/")] (str "a /* x")
      [str "b */"]).1 = 1 := by
  have h := C4_opening_line.1 [] (str "/*") (str "*/") (str "a /* x") 2 true
    [str "b */"] [] (by decide) (by decide)
  simpa using h

/-- Claim C5, confirmed: an extension absent from the registry is counted
with the raw pipeline whatever the flags, `includeComments = true` gives
the raw pipeline for every extension, and the raw pipeline counts all lines
when `includeEmpty = true` and the lines non-empty after trimming
otherwise. -/
theorem C5_unknown_raw :
    (∀ (ext : List Char) (ce cc : Bool) (src : List (List Char)),
      LANGUAGES_get ext = none → countSrc ext ce cc src = rawCount ce src) ∧
    (∀ (ext : List Char) (ce : Bool) (src : List (List Char)),
      countSrc ext ce true src = rawCount ce src) ∧
    (∀ src : List (List Char), rawCount true src = src.length) ∧
    (∀ src : List (List Char),
      rawCount false src = (src.filter fun l => !(trim l).isEmpty).length) := by
  refine ⟨?_, ?_, rawCount_true, rawCount_false⟩
  · intro ext ce cc src h
    cases cc <;> simp [countSrc, classifyCount, rawCount, h]
  · intro ext ce src
    cases h : LANGUAGES_get ext <;> simp [countSrc, classifyCount, rawCount, h]

/-- Witness for C5 at the unknown extension `xyz`. -/
theorem C5_witness :
    countSrc (str "xyz") true false [str "a", str ""] = rawCount true [str "a", str ""] :=
  C5_unknown_raw.1 (str "xyz") true false [str "a", str ""] (by decide)

/-- Claim C6, confirmed: with `includeEmpty = false`, a line that trims to
empty is dropped before comment analysis, for every descriptor (including
the unknown case) and both comment flags: inserting such a line anywhere
leaves the count unchanged. -/
theorem C6_blank_removed :
    ∀ (rules? : Option (List CommentRule)) (cc : Bool)
      (pre post : List (List Char)) (b : List Char),
      trim b = [] →
      classifyCount rules? false cc (pre ++ b :: post) =
        classifyCount rules? false cc (pre ++ post) := by
  intro rules? cc pre post b hb
  have hlines :
      (((pre ++ b :: post).map trim).filter fun l => false || !l.isEmpty) =
      (((pre ++ post).map trim).filter fun l => false || !l.isEmpty) := by
    simp [List.map_append, List.filter_append, hb]
  simp only [classifyCount]
  rw [hlines]

/-- Witness for C6: a whitespace-only line in the middle of C-style code. -/
theorem C6_witness :
    classifyCount (some C_STYLE) false false [str "a;", str "   ", str "b;"] =
      classifyCount (some C_STYLE) false false [str "a;", str "b;"] := by
  have h := C6_blank_removed (some C_STYLE) false [str "a;"] [str "b;"] (str "   ")
    (by decide)
  simpa using h

/-- Claim C7, confirmed: for every descriptor in the registry (whose
`LineStart` rules all precede its `Range` rules) and every `LineStart`
marker `m` of that descriptor, a line whose trimmed content starts with `m`
contributes nothing and consumes no further lines; the spec's `#` example
counts 1. -/
theorem C7_line_prefix :
    (∀ (ext : List Char) (lang : Language) (m l : List Char) (ls : List (List Char)),
      LANGUAGES_get ext = some lang →
      CommentRule.LineStart m ∈ lang.comments →
      m.isPrefixOf (trim l) = true →
      classifyLine lang.comments (trim l) ls = (0, ls)) ∧
    classifyCount (some HASH) false false [str "# full comment", str "x = 1"] = 1 := by
  constructor
  · intro ext lang m l ls hget hmem hpre
    have hv : lang ∈ LANGUAGES.map Prod.snd := getLang_mem ext LANGUAGES lang hget
    have hok : noLineStartAfterRange lang.comments = true :=
      (List.all_eq_true.mp LANGUAGES_ok) lang hv
    exact classifyLine_lineStart_skip lang.comments m (trim l) ls hok hmem hpre
  · decide

/-- Witness for C7: a `#` comment line under the Python descriptor. -/
theorem C7_witness :
    classifyLine (Language.comments ⟨"Python", HASH⟩) (trim (str "# hi")) [] = (0, []) :=
  C7_line_prefix.1 (str "py") ⟨"Python", HASH⟩ (str "#") (str "# hi") []
    (by decide) (by decide) (by decide)

/-- Claim C8, confirmed: a file whose read fails is skipped: the aggregate
over any file sequence containing it equals the aggregate over the same
sequence with the file removed (identical per-extension map and total), and
the run completes. -/
theorem C8_unreadable_skipped :
    ∀ (ce cc : Bool) (pre post : List FileEntry) (fe : FileEntry),
      fe.content = none →
      count_dir (pre ++ fe :: post) ce cc = count_dir (pre ++ post) ce cc := by
  intro ce cc pre post fe h
  simp [count_dir, countDirFrom, List.foldl_append, processEntry, h]

/-- Witness for C8: an unreadable entry after a readable Rust file. -/
theorem C8_witness :
    count_dir [⟨str "a.rs", some [str "x"]⟩, ⟨str "junk", none⟩] false false =
      count_dir [⟨str "a.rs", some [str "x"]⟩] false false := by
  have h := C8_unreadable_skipped false false [⟨str "a.rs", some [str "x"]⟩] []
    ⟨str "junk", none⟩ rfl
  simpa using h

/-- Claim C9, confirmed: the grand total always equals the sum of the
per-extension tallies — the invariant holds for the full run and is
preserved from any intermediate state satisfying it, since each file's
count is added to both sides in one step. -/
theorem C9_total_invariant :
    (∀ (ce cc : Bool) (res : CountResult) (entries : List FileEntry),
      sumCounts res.languages = res.total →
      sumCounts (countDirFrom ce cc res entries).languages =
        (countDirFrom ce cc res entries).total) ∧
    (∀ (entries : List FileEntry) (ce cc : Bool),
      sumCounts (count_dir entries ce cc).languages = (count_dir entries ce cc).total) := by
  have main : ∀ (ce cc : Bool) (entries : List FileEntry) (res : CountResult),
      sumCounts res.languages = res.total →
      sumCounts (countDirFrom ce cc res entries).languages =
        (countDirFrom ce cc res entries).total := by
    intro ce cc entries
    induction entries with
    | nil => intro res h; simpa [countDirFrom] using h
    | cons fe rest ih =>
      intro res h
      have hstep := processEntry_invariant ce cc res fe h
      simpa [countDirFrom, List.foldl_cons] using ih (processEntry ce cc res fe) hstep
  exact ⟨fun ce cc res entries h => main ce cc entries res h,
    fun entries ce cc => main ce cc entries ⟨[], 0⟩ (by simp [sumCounts])⟩

/-- Witness for C9 from a non-trivial intermediate state. -/
theorem C9_witness :
    sumCounts (countDirFrom false false ⟨[(str "rs", 2)], 2⟩
      [⟨str "b.py", some [str "x"]⟩]).languages =
    (countDirFrom false false ⟨[(str "rs", 2)], 2⟩
      [⟨str "b.py", some [str "x"]⟩]).total :=
  C9_total_invariant.1 false false ⟨[(str "rs", 2)], 2⟩
    [⟨str "b.py", some [str "x"]⟩] (by decide)

/-- Claim C10, confirmed: splitting a file name on `.` always has a last
segment (the `unwrap` cannot fail), a dot-free name is its own extension
key, and `makefile` and `gitignore` are registry keys, so such files hit
their entries rather than the unknown fallback. -/
theorem C10_ext_total :
    (∀ name : List Char, extOf name = some (extVal name)) ∧
    (∀ name : List Char, '.' ∉ name → extOf name = some name) ∧
    (LANGUAGES_get (str "makefile")).isSome = true ∧
    (LANGUAGES_get (str "gitignore")).isSome = true := by
  refine ⟨extOf_eq_some, ?_, by decide, by decide⟩
  intro name h
  simp [extOf, splitDot_no_dot name h]

/-- Witness for C10 at the dot-free name `makefile`. -/
theorem C10_witness : extOf (str "makefile") = some (str "makefile") :=
  C10_ext_total.2.1 (str "makefile") (by decide)

end LineCounter
